import Mathlib

/-!
# Verification of the SweepPulse sweep-processing pipeline

Shallow embedding of the numeric core of `sweep.py` (and the module-level
pipeline of `SweepPulse.py`) over `List ℚ` (1-D numpy arrays) and
`List (List ℚ)` (2-D arrays).  Machine floats are modelled by exact
rationals; where IEEE non-finite values matter (the adaptive spline
weight), values are `Option ℚ` with `none` standing for NaN.

Conventions:
* a 1-D numpy array is a `List ℚ` in sample order;
* a 2-D array in `glue_sweep` is represented by its list of columns
  (each column is one sweep segment, rows are samples within a sweep),
  so `y[-1, :]` is the list of last elements of the columns and
  `y[0, :]` the list of heads;
* the Python slice `a[start:stop]` (with non-negative bounds) is
  `pySlice`;
* `np.roll(a, s)` for `s ≥ 0` is `npRoll`.
-/

namespace SweepPulse

/-- Python slice `a[start:stop]` with non-negative clamped bounds. -/
def pySlice (l : List ℚ) (start stop : ℕ) : List ℚ :=
  (l.take stop).drop start

/-- Model of `np.roll(a, s)` for a non-negative shift `s`: elements move `s`
positions to the right, wrapping cyclically. -/
def npRoll (l : List ℚ) (s : ℕ) : List ℚ :=
  if l.length = 0 then l
  else l.drop (l.length - s % l.length) ++ l.take (l.length - s % l.length)

/-- Elementwise subtraction of two numpy arrays, with numpy's
broadcasting rule: equal lengths subtract elementwise, a length-one
operand broadcasts, anything else is a shape error (`none`). -/
def npSub (a b : List ℚ) : Option (List ℚ) :=
  if a.length = b.length then some (List.zipWith (· - ·) a b)
  else if b.length = 1 then some (a.map (· - b.headD 0))
  else if a.length = 1 then some (b.map (a.headD 0 - ·))
  else none

/-- Embedding of `sweep.extract_fg`, 1-D branch: `inten[(fg-1):fg*pts]`.
(The source tests `len(inten.shape)`; the two branches become two Lean
functions.)  Note the start index of the slice in the source is
`(fg-1)`, not `(fg-1)*pts`. -/
def extract_fg1 (inten : List ℚ) (fg pts : ℕ) : List ℚ :=
  pySlice inten (fg - 1) (fg * pts)

/-- Embedding of `sweep.extract_fg`, 2-D branch: `inten[(fg-1)*pts:fg*pts, :]`,
on the list of rows of the matrix. -/
def extract_fg2 (inten : List (List ℚ)) (fg pts : ℕ) : List (List ℚ) :=
  ((inten.take (fg * pts)).drop ((fg - 1) * pts))

/-- Embedding of `sweep.flip`: return the signal unchanged when `ordinal` is odd
(Python truthiness of `ordinal % 2`), else `np.flipud`, i.e. reverse
along the sweep axis.  `ordinal` is an `ℤ` because `sub_bg` passes
`fg - bg + 1`, which can be negative; `ordinal % 2 ≠ 0` decides oddness
exactly as Python's truth test does. -/
def flip (signal : List ℚ) (ordinal : ℤ) : List ℚ :=
  if ordinal % 2 ≠ 0 then signal else signal.reverse

/-- Embedding of `sweep.sub_bg`, 1-D branch: slice out the `fg` and `bg` segments and
return `inten_sig - flip(inten_bg, fg - bg + 1)`.  The numpy subtraction
is `npSub` (a shape mismatch would raise, hence `Option`).
Domain note: ordinals are naturals `≥ 1` (Python negative-index slicing
for `fg = 0` is not modelled; no claim evaluates it). -/
def sub_bg (inten : List ℚ) (fg bg pts : ℕ) : Option (List ℚ) :=
  let inten_sig := pySlice inten ((fg - 1) * pts) (fg * pts)
  let inten_bg := pySlice inten ((bg - 1) * pts) (bg * pts)
  npSub inten_sig (flip inten_bg ((fg : ℤ) - (bg : ℤ) + 1))

/-- Ordinals `1..sweep_num` whose parity matches `fg`:
`ordinal[ordinal % 2 == parity]` with `parity = fg % 2` in
`sweep.avg_inten`. -/
def match_parity (sweep_num fg : ℕ) : List ℕ :=
  ((List.range sweep_num).map (· + 1)).filter (fun i => i % 2 = fg % 2)

/-- Embedding of `sweep.avg_inten`, 1-D branch: sum the sweeps whose ordinal parity
matches `fg` and divide by their count. -/
def avg_inten (inten : List ℚ) (pts fg : ℕ) : List ℚ :=
  let sweep_num := inten.length / pts
  let mp := match_parity sweep_num fg
  let inten_ext := mp.foldl
    (fun acc i => List.zipWith (· + ·) acc (pySlice inten ((i - 1) * pts) (i * pts)))
    (List.replicate pts 0)
  inten_ext.map (· / (mp.length : ℚ))

/-- Embedding of `sweep.delay_inten`, 1-D branch: `np.roll(inten, dim - delay)`. -/
def delay_inten (inten : List ℚ) (delay : ℕ) : List ℚ :=
  npRoll inten (inten.length - delay)

/-- Embedding of `sweep.trunc`, 1-D branch: `freq[:-delay]`, `inten[delay:]`.
(`freq[:-delay]` is `take (len - delay)` for `delay ≥ 1`; the source
only calls `trunc` when the delay argument is truthy.) -/
def trunc (freq inten : List ℚ) (delay : ℕ) : List ℚ × List ℚ :=
  (freq.take (freq.length - delay), inten.drop delay)

/-- The delay-correction pipeline of `sweep.load_data` lines 397-405:
first `delay_inten`, then `trunc`, both with the same `delay`. -/
def delay_pipeline (freq inten : List ℚ) (delay : ℕ) : List ℚ × List ℚ :=
  trunc freq (delay_inten inten delay) delay

/-- Model of `np.roll(v, 1)` of a row vector: last element to the front. -/
def rollRight1 : List ℚ → List ℚ
  | [] => []
  | a :: as => (a :: as).getLast (List.cons_ne_nil a as) :: (a :: as).dropLast

/-- Model of `np.cumsum`: the list of prefix sums. -/
def npCumsum (l : List ℚ) : List ℚ :=
  (List.range l.length).map (fun i => (l.take (i + 1)).sum)

/-- Row `y[0, :]` of a matrix given by its columns. -/
def firstRow (y : List (List ℚ)) : List ℚ :=
  y.map (fun col => col.headD 0)

/-- Row `y[-1, :]` of a matrix given by its columns. -/
def lastRow (y : List (List ℚ)) : List ℚ :=
  y.map (fun col => col.getLastD 0)

/-- Embedding of `sweep.glue_sweep`, local `col_shift`:
`col_shift = np.roll(y[-1,:], 1) - y[0,:]` followed by
`col_shift[0] = 0`. -/
def glue_shift (y : List (List ℚ)) : List ℚ :=
  (List.zipWith (· - ·) (rollRight1 (lastRow y)) (firstRow y)).set 0 0

/-- Embedding of `sweep.glue_sweep`, local `col_shift_accum = np.cumsum(col_shift)`. -/
def glue_accum (y : List (List ℚ)) : List ℚ := npCumsum (glue_shift y)

/-- Embedding of `sweep.glue_sweep` (identical in `SweepPulse.py`): the accumulated
shift of a column is added to each of its rows (the `np.tile`
broadcast of `col_shift_accum` over the rows). -/
def glue_sweep (y : List (List ℚ)) : List (List ℚ) :=
  List.zipWith (fun col a => col.map (· + a)) y (glue_accum y)

/-- Embedding of `sweep.reconstr_freq`, scalar-center branch:
`bdwth * (np.arange(pts)/(pts-1) - 0.5)` (or its negation when the
sweep goes down) plus the scalar `center_freq`. -/
def reconstr_freq (center_freq : ℚ) (pts : ℕ) (sweep_up : Bool) (bdwth : ℚ) :
    List ℚ :=
  let single_band :=
    if sweep_up then
      (List.range pts).map (fun (i : ℕ) => bdwth * ((i : ℚ) / ((pts : ℚ) - 1) - 1/2))
    else
      (List.range pts).map (fun (i : ℕ) => bdwth * (1/2 - (i : ℚ) / ((pts : ℚ) - 1)))
  single_band.map (· + center_freq)

/-- Model of `np.convolve(a, np.ones(w), 'valid')`.  numpy's valid mode keeps the
positions where the shorter operand fully overlaps the longer, so for
`w ≤ len(a)` it is the list of window sums of width `w`, and for
`w > len(a)` it is the total sum repeated `w - len(a) + 1` times
(convolution is symmetric in its operands). -/
def npConvolveValidOnes (a : List ℚ) (w : ℕ) : List ℚ :=
  if w ≤ a.length then
    (List.range (a.length - w + 1)).map (fun i => ((a.drop i).take w).sum)
  else
    List.replicate (w - a.length + 1) a.sum

/-- Embedding of `sweep.box_car`: identity for `win == 1`, else the valid-mode
convolution with a uniform kernel, divided by `win`. -/
def box_car (x : List ℚ) (win : ℕ) : List ℚ :=
  if win = 1 then x
  else (npConvolveValidOnes x win).map (· / (win : ℚ))

/-- Model of `np.min` on a nonempty array (empty input raises in numpy and is
outside the modelled domain). -/
def listMin : List ℚ → ℚ
  | [] => 0
  | a :: as => as.foldl min a

/-- Model of `np.max` on a nonempty array. -/
def listMax : List ℚ → ℚ
  | [] => 0
  | a :: as => as.foldl max a

/-- IEEE division in the float model `Option ℚ` (`none` = NaN):
NaN propagates, and a zero denominator yields `none`.  This conflates
`x/0` for `x ≠ 0` (IEEE ±inf) with NaN, but in `weight_spline` a zero
denominator only ever occurs as `0/0` (a zero peak-to-peak range forces
a constant array, hence an all-zero numerator), which is NaN. -/
def npDiv (a b : Option ℚ) : Option ℚ :=
  match a, b with
  | some x, some y => if y = 0 then none else some (x / y)
  | _, _ => none

/-- IEEE `<` on the float model: any comparison with NaN is false. -/
def npLt (a b : Option ℚ) : Bool :=
  match a, b with
  | some x, some y => decide (x < y)
  | _, _ => false

/-- IEEE `>` on the float model: any comparison with NaN is false. -/
def npGt (a b : Option ℚ) : Bool :=
  match a, b with
  | some x, some y => decide (y < x)
  | _, _ => false

/-- Model of `np.median`: NaN if any entry is NaN (numpy propagates NaN, with a
RuntimeWarning), NaN on an empty array, else the middle element of the
sorted values, or the mean of the two middle elements for even length. -/
def npMedian (l : List (Option ℚ)) : Option ℚ :=
  if l.any (fun v => v.isNone) then none
  else
    let s := (l.filterMap id).insertionSort (· ≤ ·)
    if s.length = 0 then none
    else if s.length % 2 = 1 then some (s.getD (s.length / 2) 0)
    else some ((s.getD (s.length / 2 - 1) 0 + s.getD (s.length / 2) 0) / 2)

/-- Embedding of `sweep.weight_spline` in the float model: shift by the minimum,
rescale by the peak-to-peak range, then zero out the weights across the
median test (`> 0.9` negative peak, `< 0.1` positive peak), defaulting
to `np.ones_like` when neither test fires. -/
def weight_spline (y : List ℚ) : List (Option ℚ) :=
  let w1 := y.map (fun v => v - listMin y)
  let ptp := listMax y - listMin y
  let w2 := w1.map (fun v => npDiv (some v) (some ptp))
  let med := npMedian w2
  if npGt med (some (9/10)) then
    w2.map (fun v => if npLt v (some (9/10)) then some 0 else v)
  else if npLt med (some (1/10)) then
    w2.map (fun v => if npGt v (some (1/10)) then some 0 else v)
  else
    List.replicate y.length (some 1)

/-! ## Helper lemmas (shared) -/

theorem pySlice_length (l : List ℚ) (a b : ℕ) (hab : a ≤ b) (hb : b ≤ l.length) :
    (pySlice l a b).length = b - a := by
  simp only [pySlice, List.length_drop, List.length_take]
  omega

theorem pySlice_empty (l : List ℚ) (a b : ℕ) (h : l.length ≤ a) :
    pySlice l a b = [] := by
  apply List.drop_eq_nil_of_le
  calc (l.take b).length ≤ l.length := by simp [List.length_take]
    _ ≤ a := h

/-- The sweep segment `inten[(i-1)*pts : i*pts]` of an in-range ordinal
`i` on an array of `s` full sweeps has exactly `pts` samples. -/
theorem seg_length (l : List ℚ) (s pts i : ℕ) (hlen : l.length = s * pts)
    (h1 : 1 ≤ i) (hs : i ≤ s) :
    (pySlice l ((i - 1) * pts) (i * pts)).length = pts := by
  rw [pySlice_length l _ _ (Nat.mul_le_mul_right pts (by omega))
      (by rw [hlen]; exact Nat.mul_le_mul_right pts hs)]
  rw [← Nat.sub_mul]
  have : i - (i - 1) = 1 := by omega
  rw [this, Nat.one_mul]

theorem length_rollRight1 (l : List ℚ) : (rollRight1 l).length = l.length := by
  cases l with
  | nil => rfl
  | cons a as => simp [rollRight1]

theorem length_npCumsum (l : List ℚ) : (npCumsum l).length = l.length := by
  simp [npCumsum]

theorem length_glue_shift (y : List (List ℚ)) : (glue_shift y).length = y.length := by
  simp [glue_shift, length_rollRight1, lastRow, firstRow]

theorem length_glue_accum (y : List (List ℚ)) : (glue_accum y).length = y.length := by
  simp [glue_accum, length_npCumsum, length_glue_shift]

theorem npCumsum_getD (l : List ℚ) (i : ℕ) (h : i < l.length) :
    (npCumsum l).getD i 0 = (l.take (i + 1)).sum := by
  rw [List.getD_eq_getElem _ _ (by simpa [length_npCumsum] using h)]
  simp [npCumsum]

theorem rollRight1_getD_succ (l : List ℚ) (c : ℕ) (h : c + 1 < l.length) :
    (rollRight1 l).getD (c + 1) 0 = l.getD c 0 := by
  cases l with
  | nil => simp at h
  | cons a as =>
    have h1 : c < (a :: as).dropLast.length := by
      simp only [List.length_dropLast, List.length_cons] at h ⊢; omega
    have h2 : c < (a :: as).length := by omega
    simp only [rollRight1, List.getD_cons_succ]
    rw [List.getD_eq_getElem _ _ h1, List.getD_eq_getElem _ _ h2, List.getElem_dropLast]

theorem lastRow_getD (y : List (List ℚ)) (c : ℕ) (h : c < y.length) :
    (lastRow y).getD c 0 = (y.getD c []).getLastD 0 := by
  rw [List.getD_eq_getElem _ _ (by simpa [lastRow] using h),
      List.getD_eq_getElem _ _ h]
  simp [lastRow]

theorem firstRow_getD (y : List (List ℚ)) (c : ℕ) (h : c < y.length) :
    (firstRow y).getD c 0 = (y.getD c []).headD 0 := by
  rw [List.getD_eq_getElem _ _ (by simpa [firstRow] using h),
      List.getD_eq_getElem _ _ h]
  simp [firstRow]

/-- The entry `col_shift[0]` is forced to zero by the source's `col_shift[0] = 0`. -/
theorem glue_shift_getD_zero (y : List (List ℚ)) (h : 0 < y.length) :
    (glue_shift y).getD 0 0 = 0 := by
  rw [List.getD_eq_getElem _ _ (by simpa [length_glue_shift] using h)]
  exact List.getElem_set_self _

/-- For `c ≥ 1`, `col_shift[c] = y[-1, c-1] - y[0, c]`. -/
theorem glue_shift_getD_succ (y : List (List ℚ)) (c : ℕ) (h : c + 1 < y.length) :
    (glue_shift y).getD (c + 1) 0 =
      (y.getD c []).getLastD 0 - (y.getD (c + 1) []).headD 0 := by
  rw [List.getD_eq_getElem _ _ (by simpa [length_glue_shift] using h)]
  unfold glue_shift
  rw [List.getElem_set_ne (show (0 : ℕ) ≠ c + 1 by omega)]
  rw [List.getElem_zipWith]
  rw [← List.getD_eq_getElem (rollRight1 (lastRow y)) 0
        (by rw [length_rollRight1]; simp [lastRow]; omega),
      ← List.getD_eq_getElem (firstRow y) 0 (by simp [firstRow]; omega)]
  rw [rollRight1_getD_succ _ _ (by simp [lastRow]; omega)]
  rw [lastRow_getD _ _ (by omega), firstRow_getD _ _ h]

theorem glue_accum_getD_zero (y : List (List ℚ)) (h : 0 < y.length) :
    (glue_accum y).getD 0 0 = 0 := by
  have h' : 0 < (glue_shift y).length := by rwa [length_glue_shift]
  rw [glue_accum, npCumsum_getD _ _ h']
  cases hgs : glue_shift y with
  | nil => simp [hgs] at h'
  | cons a as =>
    have : a = 0 := by
      have := glue_shift_getD_zero y h
      rwa [hgs] at this
    simp [this]

theorem glue_accum_getD_succ (y : List (List ℚ)) (c : ℕ) (h : c + 1 < y.length) :
    (glue_accum y).getD (c + 1) 0 =
      (glue_accum y).getD c 0 + (glue_shift y).getD (c + 1) 0 := by
  have h' : c + 1 < (glue_shift y).length := by rwa [length_glue_shift]
  rw [glue_accum, npCumsum_getD _ _ h', npCumsum_getD _ _ (by omega),
      List.sum_take_succ _ _ h']
  rw [List.getD_eq_getElem _ _ h']

/-- Column `c` of the glued output is column `c` of the input shifted by
the accumulated per-column constant. -/
theorem glue_sweep_getD (y : List (List ℚ)) (c : ℕ) (h : c < y.length) :
    (glue_sweep y).getD c [] = (y.getD c []).map (· + (glue_accum y).getD c 0) := by
  have hz : c < (glue_sweep y).length := by
    simp [glue_sweep, List.length_zipWith, length_glue_accum]; omega
  rw [List.getD_eq_getElem _ _ hz]
  unfold glue_sweep
  rw [List.getElem_zipWith]
  rw [← List.getD_eq_getElem y [] h,
      ← List.getD_eq_getElem (glue_accum y) 0 (by rw [length_glue_accum]; omega)]

theorem headD_map_add (l : List ℚ) (a : ℚ) (h : l ≠ []) :
    (l.map (· + a)).headD 0 = l.headD 0 + a := by
  cases l with
  | nil => exact absurd rfl h
  | cons x t => rfl

theorem getLastD_map_add (l : List ℚ) (a : ℚ) (h : l ≠ []) :
    (l.map (· + a)).getLastD 0 = l.getLastD 0 + a := by
  rw [List.getLastD_eq_getLast?, List.getLastD_eq_getLast?, List.getLast?_map]
  rw [List.getLast?_eq_getLast l h]
  simp

theorem getD_ne_nil (y : List (List ℚ)) (c : ℕ) (h : c < y.length)
    (hcols : ∀ col ∈ y, col ≠ []) : y.getD c [] ≠ [] := by
  rw [List.getD_eq_getElem _ _ h]
  exact hcols _ (List.getElem_mem h)

/-! ## C1: extraction with `bg = fg` -/

/-- C1.  The claim says that with `bg = fg` the extraction returns
exactly the `fg`-th sweep segment, samples `(fg−1)·pts .. fg·pts−1`, so
a 1-D output has length `pts`.  The 1-D branch of `extract_fg` slices
from `(fg-1)` instead of `(fg-1)*pts`: on a 2-sweep array of 2-point
sweeps with `fg = 2` it returns samples `1..3` (length 3), not samples
`2..3` (length 2). -/
theorem extract_fg1_wrong_slice :
    extract_fg1 [0, 1, 2, 3] 2 2 = [1, 2, 3] ∧
      (extract_fg1 [0, 1, 2, 3] 2 2).length ≠ 2 := by
  constructor <;> norm_num [extract_fg1, pySlice]

/-! ## C2: delay correction pipeline -/

/-- C2.  The claim says the delay correction rolls the first `delay`
samples to the end and then drops the **last** `delay` samples of both
arrays, so the resulting intensity is the original samples
`delay..n−1`.  The code's `trunc` instead drops the **first** `delay`
samples of the rolled intensity: on `inten = [0,1,2,3]`,
`freq = [10,11,12,13]`, `delay = 1`, the pipeline returns intensity
`[2, 3, 0]` (double-shifted, with the wrapped dead-time sample kept),
not `[1, 2, 3]` as the claim states. -/
theorem delay_pipeline_double_shift :
    delay_pipeline [10, 11, 12, 13] [0, 1, 2, 3] 1 = ([10, 11, 12], [2, 3, 0]) ∧
      (delay_pipeline [10, 11, 12, 13] [0, 1, 2, 3] 1).2 ≠
        ([0, 1, 2, 3] : List ℚ).drop 1 := by
  constructor <;> norm_num [delay_pipeline, trunc, delay_inten, npRoll]

/-! ## C3: glue/stitch continuity invariant -/

/-- C3.  For every 2-D intensity matrix (given by its nonempty columns)
and every adjacent column pair `c, c+1`, the glued output satisfies
`corrected[last_row, c] = corrected[0, c+1]`: zero discontinuity at
every stitched segment boundary. -/
theorem glue_sweep_continuity (y : List (List ℚ)) (c : ℕ) (hc : c + 1 < y.length)
    (hcols : ∀ col ∈ y, col ≠ []) :
    ((glue_sweep y).getD c []).getLastD 0 = ((glue_sweep y).getD (c + 1) []).headD 0 := by
  have hc0 : c < y.length := by omega
  rw [glue_sweep_getD y c hc0, glue_sweep_getD y (c + 1) hc]
  rw [getLastD_map_add _ _ (getD_ne_nil y c hc0 hcols),
      headD_map_add _ _ (getD_ne_nil y (c + 1) hc hcols)]
  rw [glue_accum_getD_succ y c hc, glue_shift_getD_succ y c hc]
  ring

/-- C3 witness: `y = [[1,2],[3,4]]`, boundary between columns 0 and 1. -/
theorem glue_sweep_continuity_witness :
    (0 + 1 < ([[1, 2], [3, 4]] : List (List ℚ)).length ∧
        ∀ col ∈ ([[1, 2], [3, 4]] : List (List ℚ)), col ≠ []) ∧
      ((glue_sweep [[1, 2], [3, 4]]).getD 0 []).getLastD 0 =
        ((glue_sweep [[1, 2], [3, 4]]).getD (0 + 1) []).headD 0 :=
  ⟨⟨by norm_num, by simp⟩,
    glue_sweep_continuity [[1, 2], [3, 4]] 0 (by norm_num) (by simp)⟩

/-! ## C4: background-subtraction parity -/

/-- C4.  For in-range ordinals `fg ≠ bg` on an array of `s` full sweeps
of `pts` points, `sub_bg` returns `fg_segment − bg_segment` when the
ordinals have the same parity, and `fg_segment − reverse(bg_segment)`
when they have opposite parity (`fg − bg + 1` even).  The segments are
the Python slices `inten[(i-1)*pts : i*pts]`. -/
theorem sub_bg_parity (inten : List ℚ) (s pts fg bg : ℕ)
    (hlen : inten.length = s * pts) (hfg1 : 1 ≤ fg) (hfgs : fg ≤ s)
    (hbg1 : 1 ≤ bg) (hbgs : bg ≤ s) :
    sub_bg inten fg bg pts =
      some (if fg % 2 = bg % 2 then
              List.zipWith (· - ·) (pySlice inten ((fg - 1) * pts) (fg * pts))
                (pySlice inten ((bg - 1) * pts) (bg * pts))
            else
              List.zipWith (· - ·) (pySlice inten ((fg - 1) * pts) (fg * pts))
                (pySlice inten ((bg - 1) * pts) (bg * pts)).reverse) := by
  have hf := seg_length inten s pts fg hlen hfg1 hfgs
  have hb := seg_length inten s pts bg hlen hbg1 hbgs
  by_cases hp : fg % 2 = bg % 2
  · have hodd : ((fg : ℤ) - (bg : ℤ) + 1) % 2 ≠ 0 := by omega
    simp [sub_bg, flip, hodd, npSub, hf, hb, hp]
  · have heven : ((fg : ℤ) - (bg : ℤ) + 1) % 2 = 0 := by omega
    simp [sub_bg, flip, heven, npSub, hf, hb, hp, List.length_reverse]

/-- C4 witness: `[0,1,2,3]`, two sweeps of two points, `fg = 1`,
`bg = 2` (opposite parity): the background segment `[2,3]` is reversed
before subtraction, giving `[0-3, 1-2] = [-3, -1]`. -/
theorem sub_bg_parity_witness :
    ([0, 1, 2, 3] : List ℚ).length = 2 * 2 ∧
      sub_bg [0, 1, 2, 3] 1 2 2 = some [-3, -1] := by
  refine ⟨by norm_num, (sub_bg_parity [0, 1, 2, 3] 2 2 1 2 (by norm_num) (by norm_num)
    (by norm_num) (by norm_num) (by norm_num)).trans ?_⟩
  norm_num [pySlice]

/-! ## C6: out-of-range ordinals -/

/-- C6 counterexample.  The claim says out-of-range ordinals make the
background-subtraction operation fail fast with a configuration error
before any array processing.  With 2 sweeps of 2 points and the
out-of-range ordinals `fg = 3`, `bg = 4`, `sub_bg` raises nothing: the
slices silently clamp to empty and it returns a result (`some []`). -/
theorem sub_bg_out_of_range_returns :
    sub_bg [0, 1, 2, 3] 3 4 2 = some [] ∧
      (sub_bg [0, 1, 2, 3] 3 4 2).isSome = true := by
  constructor <;> norm_num [sub_bg, pySlice, npSub, flip]

/-- C6 amended.  No ordinal validation is performed: whenever both
ordinals exceed the sweep count, the segment slices clamp to empty and
`sub_bg` returns `some []` instead of failing. -/
theorem sub_bg_no_validation (inten : List ℚ) (s pts fg bg : ℕ)
    (hlen : inten.length = s * pts) (hfg : s < fg) (hbg : s < bg) :
    sub_bg inten fg bg pts = some [] := by
  have h1 : pySlice inten ((fg - 1) * pts) (fg * pts) = [] := by
    apply pySlice_empty
    rw [hlen]
    exact Nat.mul_le_mul_right pts (by omega)
  have h2 : pySlice inten ((bg - 1) * pts) (bg * pts) = [] := by
    apply pySlice_empty
    rw [hlen]
    exact Nat.mul_le_mul_right pts (by omega)
  simp [sub_bg, h1, h2, npSub, flip]

/-- C6 witness for the amended statement. -/
theorem sub_bg_no_validation_witness :
    (([0, 1, 2, 3] : List ℚ).length = 2 * 2 ∧ 2 < 3 ∧ 2 < 4) ∧
      sub_bg [0, 1, 2, 3] 3 4 2 = some [] :=
  ⟨⟨by norm_num, by norm_num, by norm_num⟩,
    sub_bg_no_validation [0, 1, 2, 3] 2 2 3 4 (by norm_num) (by norm_num) (by norm_num)⟩

/-! ## C7: boxcar smoothing -/

/-- C7 counterexample.  The claim says a window `w ≥ n` makes the
boxcar fail with an error rather than return a silently truncated or
length-swapped result.  `np.convolve(_, _, 'valid')` instead swaps the
operands: on the length-2 array `[1, 2]` with window 5 the code returns
the length-4 array `[3/5, 3/5, 3/5, 3/5]` — no error. -/
theorem box_car_win_ge_len_returns :
    box_car [1, 2] 5 = [3/5, 3/5, 3/5, 3/5] ∧ (box_car [1, 2] 5).length = 4 := by
  constructor <;> norm_num [box_car, npConvolveValidOnes, List.replicate]

/-- C7 amended.  `box_car` with `w = 1` is the identity; for
`w ≤ n` the output has length `n − w + 1`; and for `w > n` it does not
fail but returns the valid-mode convolution with the operands swapped:
`w − n + 1` copies of `sum(y)/w`. -/
theorem box_car_spec (y : List ℚ) (w : ℕ) (h0 : y ≠ []) (h1 : 1 ≤ w) :
    box_car y 1 = y ∧
      (w ≤ y.length → (box_car y w).length = y.length - w + 1) ∧
      (y.length < w → box_car y w = List.replicate (w - y.length + 1) (y.sum / (w : ℚ))) := by
  have hn : 1 ≤ y.length := List.length_pos.mpr h0
  refine ⟨by simp [box_car], fun hw => ?_, fun hw => ?_⟩
  · by_cases hw1 : w = 1
    · subst hw1; simp [box_car]; omega
    · simp [box_car, hw1, npConvolveValidOnes, if_pos hw]
  · have hw1 : w ≠ 1 := by omega
    simp [box_car, hw1, npConvolveValidOnes, Nat.not_le.mpr hw, List.map_replicate]

/-- C7 witness for the amended statement, at `y = [1,2]`, `w = 5`. -/
theorem box_car_spec_witness :
    ([1, 2] : List ℚ) ≠ [] ∧ ([1, 2] : List ℚ).length < 5 ∧
      box_car [1, 2] 5 = List.replicate (5 - ([1, 2] : List ℚ).length + 1)
        (([1, 2] : List ℚ).sum / (5 : ℚ)) :=
  ⟨by simp, by norm_num,
    (box_car_spec [1, 2] 5 (by simp) (by norm_num)).2.2 (by norm_num)⟩

/-! ## C5: frequency reconstruction -/

theorem reconstr_freq_getD_up (cf B : ℚ) (pts i : ℕ) (hi : i < pts) :
    (reconstr_freq cf pts true B).getD i 0 =
      B * ((i : ℚ) / ((pts : ℚ) - 1) - 1/2) + cf := by
  have hl : (reconstr_freq cf pts true B).length = pts := by simp [reconstr_freq]
  rw [List.getD_eq_getElem _ _ (by rwa [hl])]
  simp only [reconstr_freq, if_pos trivial]
  rw [List.getElem_map, List.getElem_map, List.getElem_range]

theorem reconstr_freq_getD_down (cf B : ℚ) (pts i : ℕ) (hi : i < pts) :
    (reconstr_freq cf pts false B).getD i 0 =
      B * (1/2 - (i : ℚ) / ((pts : ℚ) - 1)) + cf := by
  have hl : (reconstr_freq cf pts false B).length = pts := by simp [reconstr_freq]
  rw [List.getD_eq_getElem _ _ (by rwa [hl])]
  simp only [reconstr_freq, Bool.false_eq_true, if_false]
  rw [List.getElem_map, List.getElem_map, List.getElem_range]

/-- C5.  For `pts ≥ 2`, bandwidth `B` and scalar center `c`,
`reconstr_freq` with `sweep_up = true` returns the ramp
`B·(i/(pts−1) − 1/2) + c`, with `sweep_up = false` the negated ramp
`B·(1/2 − i/(pts−1)) + c`, and adding `d` to the center shifts every
sample by `d`. -/
theorem reconstr_freq_spec (B c d : ℚ) (pts : ℕ) (hpts : 2 ≤ pts) (i : ℕ) (hi : i < pts) :
    (reconstr_freq c pts true B).getD i 0 = B * ((i : ℚ) / ((pts : ℚ) - 1) - 1/2) + c ∧
      (reconstr_freq c pts false B).getD i 0 = B * (1/2 - (i : ℚ) / ((pts : ℚ) - 1)) + c ∧
      ∀ sw, (reconstr_freq (c + d) pts sw B).getD i 0 =
        (reconstr_freq c pts sw B).getD i 0 + d := by
  refine ⟨reconstr_freq_getD_up c B pts i hi, reconstr_freq_getD_down c B pts i hi, ?_⟩
  intro sw
  cases sw
  · rw [reconstr_freq_getD_down (c + d) B pts i hi, reconstr_freq_getD_down c B pts i hi]
    ring
  · rw [reconstr_freq_getD_up (c + d) B pts i hi, reconstr_freq_getD_up c B pts i hi]
    ring

/-- C5 witness at `pts = 3`, `i = 1`, `B = 2`, `c = 5`, `d = 7`. -/
theorem reconstr_freq_spec_witness :
    (2 ≤ 3 ∧ 1 < 3) ∧
      (reconstr_freq 5 3 true 2).getD 1 0 = 2 * ((1 : ℚ) / ((3 : ℚ) - 1) - 1/2) + 5 :=
  ⟨⟨by norm_num, by norm_num⟩, (reconstr_freq_spec 2 5 7 3 (by norm_num) 1 (by norm_num)).1⟩

/-! ## C9: glue/stitch frame effect -/

/-- C9.  The continuity correction leaves the first column unchanged
and changes every column only by adding a single per-column constant,
so each segment's internal shape is preserved. -/
theorem glue_sweep_frame (y : List (List ℚ)) (c : ℕ) (hc : c < y.length) :
    (glue_sweep y).getD 0 [] = y.getD 0 [] ∧
      ∃ a : ℚ, (glue_sweep y).getD c [] = (y.getD c []).map (· + a) := by
  constructor
  · rw [glue_sweep_getD y 0 (by omega), glue_accum_getD_zero y (by omega)]
    simp
  · exact ⟨_, glue_sweep_getD y c hc⟩

/-- C9 witness at `y = [[1,2],[3,4]]`, column 1. -/
theorem glue_sweep_frame_witness :
    1 < ([[1, 2], [3, 4]] : List (List ℚ)).length ∧
      ((glue_sweep [[1, 2], [3, 4]]).getD 0 [] = ([[1, 2], [3, 4]] : List (List ℚ)).getD 0 [] ∧
        ∃ a : ℚ, (glue_sweep [[1, 2], [3, 4]]).getD 1 [] =
          (([[1, 2], [3, 4]] : List (List ℚ)).getD 1 []).map (· + a)) :=
  ⟨by norm_num, glue_sweep_frame [[1, 2], [3, 4]] 1 (by norm_num)⟩

/-! ## C8: flat input to the spline weight -/

theorem foldl_min_replicate (c : ℚ) : ∀ m, (List.replicate m c).foldl min c = c
  | 0 => rfl
  | m + 1 => by
    rw [List.replicate_succ, List.foldl_cons, min_self]
    exact foldl_min_replicate c m

theorem foldl_max_replicate (c : ℚ) : ∀ m, (List.replicate m c).foldl max c = c
  | 0 => rfl
  | m + 1 => by
    rw [List.replicate_succ, List.foldl_cons, max_self]
    exact foldl_max_replicate c m

theorem listMin_replicate (m : ℕ) (c : ℚ) : listMin (List.replicate (m + 1) c) = c := by
  rw [List.replicate_succ]
  exact foldl_min_replicate c m

theorem listMax_replicate (m : ℕ) (c : ℚ) : listMax (List.replicate (m + 1) c) = c := by
  rw [List.replicate_succ]
  exact foldl_max_replicate c m

/-- C8.  On a constant (zero-variance) array the rescale divides `0` by
the zero peak-to-peak range, every weight becomes NaN, the median is
NaN, both median comparisons are false, and the weight defaults to the
uniform vector of ones — the computation is well defined and a flat
input is a valid input. -/
theorem weight_spline_const (n : ℕ) (c : ℚ) (h : 1 ≤ n) :
    weight_spline (List.replicate n c) = List.replicate n (some 1) := by
  obtain ⟨m, rfl⟩ : ∃ m, n = m + 1 := ⟨n - 1, by omega⟩
  unfold weight_spline
  simp only [listMin_replicate, listMax_replicate, List.map_replicate, sub_self,
    List.length_replicate]
  have hdiv : npDiv (some (0 : ℚ)) (some 0) = none := by simp [npDiv]
  simp only [hdiv]
  have hmed : npMedian (List.replicate (m + 1) (none : Option ℚ)) = none := by
    simp [npMedian, List.replicate_succ]
  simp only [hmed]
  simp [npGt, npLt]

/-- C8 witness: three samples all equal to 5. -/
theorem weight_spline_const_witness :
    1 ≤ 3 ∧ weight_spline (List.replicate 3 (5 : ℚ)) = List.replicate 3 (some 1) :=
  ⟨by norm_num, weight_spline_const 3 5 (by norm_num)⟩

/-! ## C10: averaging divisor -/

/-- C10.  For `1 ≤ fg ≤ sweep_num` (with `sweep_num = len(inten) // pts`
as computed by `avg_inten`), the list of ordinals matching `fg`'s parity
contains `fg` itself, so the divisor `len(match_parity)` of the
averaging mode is at least 1 and the average is well defined. -/
theorem avg_divisor_pos (inten : List ℚ) (pts fg : ℕ)
    (h1 : 1 ≤ fg) (h2 : fg ≤ inten.length / pts) :
    fg ∈ match_parity (inten.length / pts) fg ∧
      0 < (match_parity (inten.length / pts) fg).length := by
  have hmem : fg ∈ match_parity (inten.length / pts) fg := by
    unfold match_parity
    apply List.mem_filter.mpr
    refine ⟨?_, by simp⟩
    apply List.mem_map.mpr
    exact ⟨fg - 1, List.mem_range.mpr (by omega), by omega⟩
  exact ⟨hmem, List.length_pos.mpr (List.ne_nil_of_mem hmem)⟩

/-- C10 witness: 2 sweeps of 2 points, `fg = 2`. -/
theorem avg_divisor_pos_witness :
    (1 ≤ 2 ∧ 2 ≤ ([0, 1, 2, 3] : List ℚ).length / 2) ∧
      (2 ∈ match_parity (([0, 1, 2, 3] : List ℚ).length / 2) 2 ∧
        0 < (match_parity (([0, 1, 2, 3] : List ℚ).length / 2) 2).length) :=
  ⟨⟨by norm_num, by norm_num⟩, avg_divisor_pos [0, 1, 2, 3] 2 2 (by norm_num) (by norm_num)⟩

end SweepPulse
